import Mathlib

/-!
Verification of the grafi static-site generator (src/grafe.go).

The Go source is shallowly embedded: strings are modelled as `String`
(a structure around `List Char`), the Go standard-library string helpers
used by the source (`strings.Split`, `strings.TrimSpace`,
`strings.TrimPrefix`, `strings.TrimSuffix`) are reimplemented on
`List Char`, and the stateful parts of the pipeline (rendering, static
mirroring, the TypeScript pass, the build orchestration in `main`) are
modelled as explicit state-passing functions over a functional file
system.  External engines (goldmark, html/template, the TypeScript
transpiler) are out of scope per the specification and appear as opaque
parameters or as already-produced values.
-/

set_option autoImplicit false

/-! ### Go standard-library string operations, on `List Char` -/

/-- Go `strings.Split(s, sep)` for a single-character separator `sep`.
`goSplit sep []` is `[[]]`, matching `strings.Split("", sep) == [""]`. -/
def goSplit (sep : Char) : List Char → List (List Char)
  | [] => [[]]
  | c :: rest =>
    match goSplit sep rest with
    | [] => [[]]
    | h :: t => if c = sep then [] :: h :: t else (c :: h) :: t

/-- Whitespace predicate used by Go `strings.TrimSpace`
(restricted to the ASCII whitespace relevant to paths). -/
def goIsSpace (c : Char) : Bool := c.isWhitespace

/-- Go `strings.TrimSpace`: remove leading and trailing whitespace. -/
def goTrimSpaceL (l : List Char) : List Char :=
  ((l.dropWhile goIsSpace).reverse.dropWhile goIsSpace).reverse

/-- Go `strings.TrimPrefix(s, pre)`: drop `pre` from the front of `s`
when it is a prefix, otherwise return `s` unchanged. -/
def goTrimPreL (s pre : List Char) : List Char :=
  if pre.isPrefixOf s then s.drop pre.length else s

/-- Go `strings.TrimSuffix(s, suf)`: drop `suf` from the end of `s`
when it is a suffix, otherwise return `s` unchanged. -/
def goTrimSufL (s suf : List Char) : List Char :=
  if suf.isSuffixOf s then s.take (s.length - suf.length) else s

/-- The segment of `l` after the last `sep`: Go `parts[len(parts)-1]`
for `parts := strings.Split(l, sep)`. -/
def lastSeg (sep : Char) (l : List Char) : List Char :=
  (goSplit sep l).getLastD []

/-! ### Path utilities from src/grafe.go (lines 48-66) -/

/-- `getExtension` from src/grafe.go lines 48-54, on `List Char`:
split the trimmed path on `/`, take the final segment, split its
trimmed form on `.`, and trim the first dot-component off the front of
the (untrimmed) final segment. -/
def getExtensionL (filePath : List Char) : List Char :=
  let filePathParts := goSplit '/' (goTrimSpaceL filePath)
  let fileName := filePathParts.getLastD []
  let fileNameElems := goSplit '.' (goTrimSpaceL fileName)
  goTrimPreL fileName (fileNameElems.headD [])

/-- `removeExtension` from src/grafe.go lines 56-58, on `List Char`. -/
def removeExtensionL (filePath : List Char) : List Char :=
  goTrimSufL (goTrimSpaceL filePath) (getExtensionL filePath)

/-- `getExtension` from src/grafe.go lines 48-54. -/
def getExtension (filePath : String) : String :=
  ⟨getExtensionL filePath.data⟩

/-- `removeExtension` from src/grafe.go lines 56-58. -/
def removeExtension (filePath : String) : String :=
  ⟨removeExtensionL filePath.data⟩

/-- `addExtension` from src/grafe.go lines 60-62. -/
def addExtension (filePath newExtension : String) : String :=
  filePath ++ newExtension

/-- `changeExtension` from src/grafe.go lines 64-66. -/
def changeExtension (filePath newExtension : String) : String :=
  addExtension (removeExtension filePath) newExtension

/-- Go `strings.TrimSpace` on `String`. -/
def goTrimSpace (s : String) : String := ⟨goTrimSpaceL s.data⟩

/-- The final `/`-segment of the trimmed path: the `fileName` local of
`getExtension` in src/grafe.go line 50. -/
def fileNameOf (p : String) : String := ⟨lastSeg '/' (goTrimSpaceL p.data)⟩

example : getExtension "a/b/c.tar.gz" = ".tar.gz" := by decide
example : getExtension "a/b/noext" = "" := by decide
example : getExtension "a.b/c" = "" := by decide
example : changeExtension "content/x/y.md" ".html" = "content/x/y.html" := by decide

/-! ### Generic list lemmas -/

theorem strData_append (s t : String) : (s ++ t).data = s.data ++ t.data := by
  cases s; cases t; rfl

theorem strExt {s t : String} (h : s.data = t.data) : s = t := by
  cases s; cases t; exact congrArg String.mk h

theorem getLastD_append_ne {α : Type} (a : List α) {b : List α} (d : α)
    (hb : b ≠ []) : (a ++ b).getLastD d = b.getLastD d := by
  rw [List.getLastD_eq_getLast?, List.getLastD_eq_getLast?,
    List.getLast?_append_of_ne_nil _ hb]

theorem goSplit_ne_nil (sep : Char) (l : List Char) : goSplit sep l ≠ [] := by
  cases l with
  | nil => simp [goSplit]
  | cons c rest =>
    simp only [goSplit]
    cases goSplit sep rest with
    | nil => simp
    | cons h t =>
      by_cases hc : c = sep <;> simp [hc]

theorem goSplit_append (sep : Char) (xs ys : List Char) :
    goSplit sep (xs ++ sep :: ys) = goSplit sep xs ++ goSplit sep ys := by
  induction xs with
  | nil =>
    cases hys : goSplit sep ys with
    | nil => exact absurd hys (goSplit_ne_nil sep ys)
    | cons h t => simp [goSplit, hys]
  | cons c rest ih =>
    rw [List.cons_append]
    simp only [goSplit, ih]
    cases hr : goSplit sep rest with
    | nil => exact absurd hr (goSplit_ne_nil sep rest)
    | cons h t =>
      cases hys : goSplit sep ys with
      | nil => exact absurd hys (goSplit_ne_nil sep ys)
      | cons h2 t2 =>
        by_cases hc : c = sep <;> simp [hc]

theorem goSplit_of_not_mem {sep : Char} {l : List Char} (h : sep ∉ l) :
    goSplit sep l = [l] := by
  induction l with
  | nil => rfl
  | cons c rest ih =>
    have hc : ¬ c = sep := fun hcs => h (hcs ▸ List.mem_cons_self c rest)
    have hrest : sep ∉ rest := fun hm => h (List.mem_cons_of_mem c hm)
    simp only [goSplit, ih hrest]
    simp [hc]

theorem goSplit_length (sep : Char) (l : List Char) :
    (goSplit sep l).length = l.count sep + 1 := by
  induction l with
  | nil => rfl
  | cons c rest ih =>
    cases hr : goSplit sep rest with
    | nil => exact absurd hr (goSplit_ne_nil sep rest)
    | cons h t =>
      rw [hr] at ih
      by_cases hc : c = sep
      · subst hc
        simp only [goSplit, hr]
        rw [if_pos trivial]
        simp only [List.length_cons, List.count_cons_self]
        simp only [List.length_cons] at ih
        omega
      · simp only [goSplit, hr]
        rw [if_neg hc]
        simp only [List.length_cons, List.count_cons_of_ne (Ne.symm hc)]
        simp only [List.length_cons] at ih
        omega

theorem goSplit_singleton {sep : Char} {l h : List Char}
    (hs : goSplit sep l = [h]) : h = l ∧ sep ∉ l := by
  have hcount : l.count sep = 0 := by
    have := goSplit_length sep l
    rw [hs] at this
    simpa using this.symm
  have hmem : sep ∉ l := by
    intro hm
    have := List.count_pos_iff.mpr hm
    omega
  have hl := goSplit_of_not_mem hmem
  rw [hl] at hs
  injection hs with h1 h2
  exact ⟨h1.symm, hmem⟩

theorem lastSeg_of_not_mem {sep : Char} {l : List Char} (h : sep ∉ l) :
    lastSeg sep l = l := by
  rw [lastSeg, goSplit_of_not_mem h]
  rfl

theorem lastSeg_append (sep : Char) (xs ys : List Char) :
    lastSeg sep (xs ++ sep :: ys) = lastSeg sep ys := by
  rw [lastSeg, goSplit_append, getLastD_append_ne _ _ (goSplit_ne_nil sep ys)]
  rfl

theorem lastSeg_unique {sep : Char} {l t f : List Char}
    (hl : l = t ++ f) (hf : sep ∉ f)
    (ht : t = [] ∨ ∃ t1, t = t1 ++ [sep]) : lastSeg sep l = f := by
  rcases ht with ht | ⟨t1, ht⟩
  · rw [hl, ht, List.nil_append, lastSeg_of_not_mem hf]
  · rw [hl, ht, List.append_assoc, List.singleton_append, lastSeg_append,
      lastSeg_of_not_mem hf]

theorem lastSeg_spec (sep : Char) (l : List Char) :
    ∃ t, l = t ++ lastSeg sep l ∧ (t = [] ∨ ∃ t1, t = t1 ++ [sep]) ∧
      sep ∉ lastSeg sep l := by
  induction l with
  | nil =>
    refine ⟨[], ?_, Or.inl rfl, ?_⟩
    · rw [lastSeg_of_not_mem (List.not_mem_nil sep)]
      rfl
    · rw [lastSeg_of_not_mem (List.not_mem_nil sep)]
      exact List.not_mem_nil sep
  | cons c rest ih =>
    by_cases hc : c = sep
    · subst hc
      obtain ⟨t, hrest, ht, hmem⟩ := ih
      have hseg : lastSeg c (c :: rest) = lastSeg c rest := by
        have : c :: rest = [] ++ c :: rest := rfl
        rw [this, lastSeg_append]
      refine ⟨c :: t, ?_, Or.inr ?_, ?_⟩
      · rw [hseg, List.cons_append, ← hrest]
      · rcases ht with ht | ⟨t1, ht⟩
        · exact ⟨[], by simp [ht]⟩
        · exact ⟨c :: t1, by simp [ht]⟩
      · rw [hseg]; exact hmem
    · by_cases hmem : sep ∈ rest
      · obtain ⟨t, hrest, ht, hlast⟩ := ih
        have htne : t ≠ [] := by
          rcases ht with ht | ⟨t1, ht⟩
          · intro _
            rw [ht, List.nil_append] at hrest
            exact hlast (hrest ▸ hmem)
          · intro hnil
            rw [hnil] at ht
            exact absurd ht.symm (by simp)
        have hseg : lastSeg sep (c :: rest) = lastSeg sep rest := by
          rcases ht with ht | ⟨t1, ht⟩
          · exact absurd ht htne
          · have h1 : rest = t1 ++ sep :: lastSeg sep rest := by
              conv_lhs => rw [hrest, ht]
              simp
            have hdecomp : c :: rest = (c :: t1) ++ sep :: lastSeg sep rest := by
              conv_lhs => rw [h1]
              rfl
            rw [hdecomp, lastSeg_append, lastSeg_of_not_mem hlast]
        refine ⟨c :: t, ?_, Or.inr ?_, ?_⟩
        · rw [hseg, List.cons_append, ← hrest]
        · rcases ht with ht | ⟨t1, ht⟩
          · exact absurd ht htne
          · exact ⟨c :: t1, by simp [ht]⟩
        · rw [hseg]; exact hlast
      · have hnotmem : sep ∉ c :: rest := by
          intro hin
          rcases List.mem_cons.mp hin with h1 | h2
          · exact hc h1.symm
          · exact hmem h2
        exact ⟨[], by rw [lastSeg_of_not_mem hnotmem]; rfl, Or.inl rfl,
          by rw [lastSeg_of_not_mem hnotmem]; exact hnotmem⟩

theorem goSplit_headD (sep : Char) (l : List Char) :
    (goSplit sep l).headD [] = l.takeWhile (fun c => c ≠ sep) := by
  induction l with
  | nil => rfl
  | cons c rest ih =>
    cases hr : goSplit sep rest with
    | nil => exact absurd hr (goSplit_ne_nil sep rest)
    | cons h t =>
      rw [hr] at ih
      by_cases hc : c = sep
      · subst hc
        simp only [goSplit, hr]
        rw [if_pos trivial]
        simp [List.takeWhile]
      · simp only [goSplit, hr]
        rw [if_neg hc]
        simp only [List.headD_cons] at ih
        simp [List.takeWhile, hc, ih]

/-! ### dropWhile / takeWhile / trim lemmas -/

theorem isPre_iff {l1 l2 : List Char} : l1.isPrefixOf l2 = true ↔ l1 <+: l2 :=
  List.isPrefixOf_iff_prefix

theorem isSuf_iff {l1 l2 : List Char} : l1.isSuffixOf l2 = true ↔ l1 <:+ l2 :=
  List.isSuffixOf_iff_suffix

theorem dropWhile_eq_self_of (p : Char → Bool) (l : List Char)
    (h : l = [] ∨ p (l.headD ' ') = false) : l.dropWhile p = l := by
  cases l with
  | nil => rfl
  | cons c rest =>
    rcases h with h | h
    · exact absurd h (by simp)
    · simp only [List.headD_cons] at h
      simp [List.dropWhile, h]

theorem dropWhile_headD_false (p : Char → Bool) (l : List Char) :
    l.dropWhile p = [] ∨ p ((l.dropWhile p).headD ' ') = false := by
  induction l with
  | nil => exact Or.inl rfl
  | cons c rest ih =>
    by_cases hc : p c = true
    · simpa [List.dropWhile, hc] using ih
    · right
      simp only [Bool.not_eq_true] at hc
      simp [List.dropWhile, hc]

theorem headD_of_pre {l1 l2 : List Char} (h : l1 <+: l2) (hne : l1 ≠ []) :
    l1.headD ' ' = l2.headD ' ' := by
  obtain ⟨r, rfl⟩ := h
  cases l1 with
  | nil => exact absurd rfl hne
  | cons c rest => rfl

theorem headD_reverse (l : List Char) : l.reverse.headD ' ' = l.getLastD ' ' := by
  rw [List.headD_eq_head?_getD, List.head?_reverse, List.getLastD_eq_getLast?]

theorem getLastD_reverse (l : List Char) : l.reverse.getLastD ' ' = l.headD ' ' := by
  rw [List.getLastD_eq_getLast?, List.getLast?_reverse, List.headD_eq_head?_getD]

theorem trimSpace_eq_self {l : List Char}
    (hh : l = [] ∨ goIsSpace (l.headD ' ') = false)
    (hl : l = [] ∨ goIsSpace (l.getLastD ' ') = false) :
    goTrimSpaceL l = l := by
  rw [goTrimSpaceL, dropWhile_eq_self_of _ _ hh, dropWhile_eq_self_of, List.reverse_reverse]
  rcases hl with hl | hl
  · subst hl; exact Or.inl rfl
  · right
    rw [headD_reverse]
    exact hl

theorem trimSpace_headD (l : List Char) :
    goTrimSpaceL l = [] ∨ goIsSpace ((goTrimSpaceL l).headD ' ') = false := by
  by_cases hnil : goTrimSpaceL l = []
  · exact Or.inl hnil
  · right
    have hpre : goTrimSpaceL l <+: l.dropWhile goIsSpace := by
      obtain ⟨t, ht⟩ := List.dropWhile_suffix (l := (l.dropWhile goIsSpace).reverse) goIsSpace
      rw [goTrimSpaceL]
      refine ⟨t.reverse, ?_⟩
      rw [← List.reverse_append, ht, List.reverse_reverse]
    have hd := headD_of_pre hpre hnil
    rw [hd]
    rcases dropWhile_headD_false goIsSpace l with h | h
    · have : goTrimSpaceL l <+: ([] : List Char) := h ▸ hpre
      rw [List.prefix_nil] at this
      exact absurd this hnil
    · exact h

theorem trimSpace_getLastD (l : List Char) :
    goTrimSpaceL l = [] ∨ goIsSpace ((goTrimSpaceL l).getLastD ' ') = false := by
  rcases dropWhile_headD_false goIsSpace (l.dropWhile goIsSpace).reverse with h | h
  · left
    rw [goTrimSpaceL, h]
    rfl
  · right
    rw [goTrimSpaceL, getLastD_reverse]
    exact h

theorem takeWhile_all_append (p : Char → Bool) (xs ys : List Char)
    (h : ∀ a ∈ xs, p a = true) :
    (xs ++ ys).takeWhile p = xs ++ ys.takeWhile p := by
  induction xs with
  | nil => rfl
  | cons c rest ih =>
    have hc : p c = true := h c (List.mem_cons_self c rest)
    rw [List.cons_append, List.takeWhile_cons_of_pos hc, List.cons_append,
      ih fun a ha => h a (List.mem_cons_of_mem c ha)]

theorem takeWhile_cons_false {p : Char → Bool} {c : Char} (m : List Char)
    (h : p c = false) : (c :: m).takeWhile p = [] := by
  simp [List.takeWhile_cons, h]

theorem trimPre_append (pre r : List Char) : goTrimPreL (pre ++ r) pre = r := by
  rw [goTrimPreL, if_pos (isPre_iff.mpr (List.prefix_append pre r)), List.drop_left]

theorem trimSuf_append (a s : List Char) : goTrimSufL (a ++ s) s = a := by
  rw [goTrimSufL, if_pos (isSuf_iff.mpr (List.suffix_append a s)),
    List.take_left' (by simp)]

theorem trimSuf_recon {l s : List Char} (h : s <:+ l) : goTrimSufL l s ++ s = l := by
  obtain ⟨a, rfl⟩ := h
  rw [trimSuf_append]

/-! ### Structure of getExtension / removeExtension -/

theorem trimPre_of_not {s pre : List Char} (h : ¬ pre <+: s) :
    goTrimPreL s pre = s := by
  rw [goTrimPreL, if_neg (fun hb => h (isPre_iff.mp hb))]

theorem trimPre_nil (s : List Char) : goTrimPreL s [] = s := by
  simp [goTrimPreL, List.isPrefixOf]

theorem takeWhile_pre (p : Char → Bool) (l : List Char) : l.takeWhile p <+: l :=
  List.takeWhile_prefix p

theorem mem_of_pre {l1 l2 : List Char} {a : Char} (h : l1 <+: l2) (ha : a ∈ l1) :
    a ∈ l2 := by
  obtain ⟨r, rfl⟩ := h
  exact List.mem_append.mpr (Or.inl ha)

theorem getExtensionL_eq (p : List Char) :
    getExtensionL p = goTrimPreL (lastSeg '/' (goTrimSpaceL p))
      ((goSplit '.' (goTrimSpaceL (lastSeg '/' (goTrimSpaceL p)))).headD []) := rfl

theorem getExtensionL_eq2 (p : List Char) :
    getExtensionL p = goTrimPreL (lastSeg '/' (goTrimSpaceL p))
      ((goTrimSpaceL (lastSeg '/' (goTrimSpaceL p))).takeWhile (fun c => c ≠ '.')) := by
  rw [getExtensionL_eq, goSplit_headD]

theorem ext_suffix (p : List Char) : getExtensionL p <:+ goTrimSpaceL p := by
  have hf : lastSeg '/' (goTrimSpaceL p) <:+ goTrimSpaceL p := by
    obtain ⟨t, ht, _, _⟩ := lastSeg_spec '/' (goTrimSpaceL p)
    exact ⟨t, ht.symm⟩
  rw [getExtensionL_eq2, goTrimPreL]
  split_ifs with hb
  · exact (List.drop_suffix _ _).trans hf
  · exact hf

theorem removeExt_recon (p : List Char) :
    removeExtensionL p ++ getExtensionL p = goTrimSpaceL p := by
  rw [removeExtensionL]
  exact trimSuf_recon (ext_suffix p)

theorem ext_of_shape {t0 f0 m : List Char}
    (ht : t0 = [] ∨ ∃ t1, t0 = t1 ++ ['/'])
    (hf2 : '/' ∉ f0) (hf3 : '.' ∉ f0)
    (hhead : t0 ++ f0 = [] ∨ goIsSpace ((t0 ++ f0).headD ' ') = false)
    (hf5 : f0 = [] ∨ goIsSpace (f0.headD ' ') = false)
    (hm1 : '/' ∉ m) (hm2 : goIsSpace (m.getLastD '.') = false) :
    getExtensionL (t0 ++ (f0 ++ '.' :: m)) = '.' :: m ∧
    removeExtensionL (t0 ++ (f0 ++ '.' :: m)) = t0 ++ f0 := by
  have hdot : goIsSpace '.' = false := by decide
  have hfn_head : f0 ++ '.' :: m = [] ∨
      goIsSpace ((f0 ++ '.' :: m).headD ' ') = false := by
    right
    cases f0 with
    | nil => simpa using hdot
    | cons c cs =>
      rcases hf5 with h5 | h5
      · exact absurd h5 (by simp)
      · simpa using h5
  have hfn_last : goIsSpace ((f0 ++ '.' :: m).getLastD ' ') = false := by
    rw [getLastD_append_ne _ _ (by simp), List.getLastD_cons]
    exact hm2
  have hq_head : t0 ++ (f0 ++ '.' :: m) = [] ∨
      goIsSpace ((t0 ++ (f0 ++ '.' :: m)).headD ' ') = false := by
    right
    cases t0 with
    | nil =>
      rcases hfn_head with h | h
      · exact absurd h (by simp)
      · simpa using h
    | cons c cs =>
      rcases hhead with h | h
      · exact absurd h (by simp)
      · simpa using h
  have hq_last : goIsSpace ((t0 ++ (f0 ++ '.' :: m)).getLastD ' ') = false := by
    rw [getLastD_append_ne _ _ (by simp)]
    exact hfn_last
  have htrimq : goTrimSpaceL (t0 ++ (f0 ++ '.' :: m)) = t0 ++ (f0 ++ '.' :: m) :=
    trimSpace_eq_self hq_head (Or.inr hq_last)
  have hnsep : '/' ∉ f0 ++ '.' :: m := by
    intro hmem
    rcases List.mem_append.mp hmem with h | h
    · exact hf2 h
    · rcases List.mem_cons.mp h with h | h
      · exact absurd h (by decide)
      · exact hm1 h
  have hseg : lastSeg '/' (goTrimSpaceL (t0 ++ (f0 ++ '.' :: m))) = f0 ++ '.' :: m := by
    rw [htrimq]
    exact lastSeg_unique rfl hnsep ht
  have htrimfn : goTrimSpaceL (f0 ++ '.' :: m) = f0 ++ '.' :: m :=
    trimSpace_eq_self hfn_head (Or.inr hfn_last)
  have htake : (f0 ++ '.' :: m).takeWhile (fun c => c ≠ '.') = f0 := by
    rw [takeWhile_all_append _ _ _ (fun a ha => by
      simp only [ne_eq, decide_eq_true_eq]
      intro hadot
      exact hf3 (hadot ▸ ha))]
    rw [takeWhile_cons_false m (by simp)]
    simp
  have hext : getExtensionL (t0 ++ (f0 ++ '.' :: m)) = '.' :: m := by
    rw [getExtensionL_eq2, hseg, htrimfn, htake, trimPre_append]
  refine ⟨hext, ?_⟩
  rw [removeExtensionL, htrimq, hext, ← List.append_assoc, trimSuf_append]

theorem trimPre_eq_of_decomp {f e r : List Char} (hr : e ++ r = f) :
    goTrimPreL f e = r := by
  rw [← hr, trimPre_append]

theorem trimSuf_eq_of_decomp {t a s : List Char} (h : a ++ s = t) :
    goTrimSufL t s = a := by
  rw [← h, trimSuf_append]

theorem removeExt_shape_core {t t0 f : List Char}
    (hdec : t = t0 ++ f)
    (ht0 : t0 = [] ∨ ∃ t1, t0 = t1 ++ ['/'])
    (hnos : '/' ∉ f)
    (hthead : t = [] ∨ goIsSpace (t.headD ' ') = false)
    (htlast : t = [] ∨ goIsSpace (t.getLastD ' ') = false) :
    ∃ f0, goTrimSufL t (goTrimPreL f ((goTrimSpaceL f).takeWhile (fun c => c ≠ '.'))) =
        t0 ++ f0 ∧
      '/' ∉ f0 ∧ '.' ∉ f0 ∧
      (t0 ++ f0 = [] ∨ goIsSpace ((t0 ++ f0).headD ' ') = false) ∧
      (f0 = [] ∨ goIsSpace (f0.headD ' ') = false) := by
  have hf_last : f = [] ∨ goIsSpace (f.getLastD ' ') = false := by
    by_cases hfe : f = []
    · exact Or.inl hfe
    · right
      have h1 : f.getLastD ' ' = t.getLastD ' ' := by
        rw [hdec, getLastD_append_ne _ _ hfe]
      rw [h1]
      rcases htlast with h | h
      · rw [hdec] at h
        exact absurd (List.append_eq_nil.mp h).2 hfe
      · exact h
  by_cases htf : goTrimSpaceL f = f
  · obtain ⟨r, hr⟩ := takeWhile_pre (fun c => c ≠ '.') f
    have hext_eq : goTrimPreL f ((goTrimSpaceL f).takeWhile (fun c => c ≠ '.')) = r := by
      rw [htf]
      exact trimPre_eq_of_decomp hr
    have hfull : (t0 ++ f.takeWhile (fun c => c ≠ '.')) ++ r = t := by
      rw [List.append_assoc, hr, ← hdec]
    refine ⟨f.takeWhile (fun c => c ≠ '.'), ?_, ?_, ?_, ?_, ?_⟩
    · rw [hext_eq]
      exact trimSuf_eq_of_decomp hfull
    · intro hmem
      exact hnos (mem_of_pre ⟨r, hr⟩ hmem)
    · intro hmem
      have := List.mem_takeWhile_imp hmem
      simp at this
    · by_cases hne : t0 ++ f.takeWhile (fun c => c ≠ '.') = []
      · exact Or.inl hne
      · right
        rw [headD_of_pre ⟨r, hfull⟩ hne]
        rcases hthead with h | h
        · rw [h] at hfull
          exact absurd (List.append_eq_nil.mp hfull).1 hne
        · exact h
    · by_cases hne : f.takeWhile (fun c => c ≠ '.') = []
      · exact Or.inl hne
      · right
        rw [headD_of_pre ⟨r, hr⟩ hne]
        rcases trimSpace_headD f with h | h
        · rw [htf] at h
          subst h
          simp at hne
        · rw [htf] at h
          exact h
  · have hf_ne : f ≠ [] := by
      intro hfe
      exact htf (by rw [hfe]; rfl)
    have hf_head_space : goIsSpace (f.headD ' ') = true := by
      by_cases hh : goIsSpace (f.headD ' ') = false
      · exact absurd (trimSpace_eq_self (Or.inr hh) hf_last) htf
      · simpa using hh
    have hext_eq : goTrimPreL f ((goTrimSpaceL f).takeWhile (fun c => c ≠ '.')) = f := by
      by_cases he0 : (goTrimSpaceL f).takeWhile (fun c => c ≠ '.') = []
      · rw [he0, trimPre_nil]
      · apply trimPre_of_not
        intro hpre
        have h1 := headD_of_pre hpre he0
        have h2 := headD_of_pre (takeWhile_pre (fun c => c ≠ '.') (goTrimSpaceL f)) he0
        rcases trimSpace_headD f with h | h
        · rw [h] at h2
          have h3 : (goTrimSpaceL f).takeWhile (fun c => c ≠ '.') <+: ([] : List Char) :=
            h ▸ takeWhile_pre _ _
          rw [List.prefix_nil] at h3
          exact absurd h3 he0
        · rw [← h2] at h
          rw [h1, hf_head_space] at h
          exact absurd h (by simp)
    refine ⟨[], ?_, by simp, by simp, ?_, Or.inl rfl⟩
    · rw [hext_eq, List.append_nil]
      exact trimSuf_eq_of_decomp hdec.symm
    · rw [List.append_nil]
      by_cases hne : t0 = []
      · exact Or.inl hne
      · right
        rw [headD_of_pre ⟨f, hdec.symm⟩ hne]
        rcases hthead with h | h
        · rw [hdec] at h
          exact absurd (List.append_eq_nil.mp h).1 hne
        · exact h

theorem removeExt_shape (p : List Char) :
    ∃ t0 f0, removeExtensionL p = t0 ++ f0 ∧
      (t0 = [] ∨ ∃ t1, t0 = t1 ++ ['/']) ∧
      '/' ∉ f0 ∧ '.' ∉ f0 ∧
      (t0 ++ f0 = [] ∨ goIsSpace ((t0 ++ f0).headD ' ') = false) ∧
      (f0 = [] ∨ goIsSpace (f0.headD ' ') = false) := by
  obtain ⟨t0, hdec, ht0, hnos⟩ := lastSeg_spec '/' (goTrimSpaceL p)
  obtain ⟨f0, h1, h2, h3, h4, h5⟩ :=
    removeExt_shape_core hdec ht0 hnos (trimSpace_headD p) (trimSpace_getLastD p)
  refine ⟨t0, f0, ?_, ht0, h2, h3, h4, h5⟩
  rw [removeExtensionL, getExtensionL_eq2]
  exact h1

theorem drop_of_decomp {f e r : List Char} (hr : e ++ r = f) :
    f.drop e.length = r := by
  rw [← hr, List.drop_left]

theorem removeExt_append_dot (p m : List Char) (hm1 : '/' ∉ m)
    (hm2 : goIsSpace (m.getLastD '.') = false) :
    getExtensionL (removeExtensionL p ++ '.' :: m) = '.' :: m ∧
    removeExtensionL (removeExtensionL p ++ '.' :: m) = removeExtensionL p := by
  obtain ⟨t0, f0, heq, ht, h2, h3, h4, h5⟩ := removeExt_shape p
  have hshape := ext_of_shape ht h2 h3 h4 h5 hm1 hm2
  rw [heq, List.append_assoc]
  exact ⟨hshape.1, by rw [hshape.2]⟩

/-! ### Claims C7 and C1: extension algebra -/

/-- Modelled from the spec (amended to the first dot): the substring of the
final path segment from (and including) its first `.`, empty when the
segment has no dot. -/
def firstDotSuffixOf (s : String) : String :=
  ⟨s.data.drop ((s.data.takeWhile (fun c => c ≠ '.')).length)⟩

/-- C7: for every path `p` and every extension `e`,
`changeExtension (changeExtension p ".x") e = addExtension (removeExtension p) e`:
the extension round-trip on the base name is stable regardless of the
intermediate extension. -/
theorem c7_extension_roundtrip (p e : String) :
    changeExtension (changeExtension p ".x") e = addExtension (removeExtension p) e := by
  have hdata : (changeExtension p ".x").data = removeExtensionL p.data ++ '.' :: ['x'] := by
    show (removeExtension p ++ ".x").data = _
    rw [strData_append]
    rfl
  have hlist : removeExtensionL (changeExtension p ".x").data = removeExtensionL p.data :=
    (congrArg removeExtensionL hdata).trans
      (removeExt_append_dot p.data ['x'] (by decide) (by decide)).2
  have key : removeExtension (changeExtension p ".x") = removeExtension p :=
    congrArg String.mk hlist
  rw [← key]
  rfl

/-- C1 (corrected) counterexample: `getExtension` keeps everything from the
FIRST dot of the final segment, so on `"a/b/c.tar.gz"` it does not return
`".gz"` as the claim states. -/
theorem c1_counterexample :
    getExtension "a/b/c.tar.gz" ≠ ".gz" ∧ getExtension "a/b/c.tar.gz" = ".tar.gz" := by
  constructor
  · decide
  · decide

/-- C1 (amended): for every path whose final segment carries no stray
whitespace, `getExtension` returns the substring from (and including) the
FIRST `.` of the final path segment (empty when the segment has no dot);
a dot in a directory component is never part of the extension, and
`getExtension "a/b/c.tar.gz" = ".tar.gz"`, `getExtension "a/b/noext" = ""`. -/
theorem c1_amended :
    (∀ p : String, goTrimSpace (fileNameOf p) = fileNameOf p →
      getExtension p = firstDotSuffixOf (fileNameOf p)) ∧
    getExtension "a/b/c.tar.gz" = ".tar.gz" ∧
    getExtension "a/b/noext" = "" ∧
    getExtension "a.b/c" = "" := by
  refine ⟨?_, by decide, by decide, by decide⟩
  intro p hp
  have hp' : goTrimSpaceL (lastSeg '/' (goTrimSpaceL p.data)) =
      lastSeg '/' (goTrimSpaceL p.data) := congrArg String.data hp
  obtain ⟨r, hr⟩ := takeWhile_pre (fun c => c ≠ '.') (lastSeg '/' (goTrimSpaceL p.data))
  have hfinal : getExtensionL p.data = (lastSeg '/' (goTrimSpaceL p.data)).drop
      (((lastSeg '/' (goTrimSpaceL p.data)).takeWhile (fun c => c ≠ '.')).length) := by
    rw [getExtensionL_eq2, hp', trimPre_eq_of_decomp hr]
    exact (drop_of_decomp hr).symm
  exact congrArg String.mk hfinal

/-- Witness for C1 (amended) at the concrete path `"docs/guide.md"`. -/
theorem c1_amended_witness :
    goTrimSpace (fileNameOf "docs/guide.md") = fileNameOf "docs/guide.md" ∧
    getExtension "docs/guide.md" = firstDotSuffixOf (fileNameOf "docs/guide.md") :=
  ⟨by decide, c1_amended.1 "docs/guide.md" (by decide)⟩

/-! ### Content renderer: generateHtmlFile (src/grafe.go lines 86-131)

The goldmark converter is an external engine: the rendering step is
modelled from the point where `meta.Get(context)` has produced the
front-matter map.  Front-matter values are modelled by `GoValue`
(`Params` maps are opaque pass-through data, so their entries are
modelled as an opaque association list). -/

/-- A front-matter value as stored in Go's `map[string]interface{}`. -/
inductive GoValue where
  | nullV : GoValue
  | boolV : Bool → GoValue
  | strV : String → GoValue
  | intV : Int → GoValue
  | mapV : List (String × String) → GoValue
deriving DecidableEq

/-- Lookup in the front-matter map; a missing key is Go's `nil`. -/
def metaLookup (metaData : List (String × GoValue)) (k : String) : Option GoValue :=
  (metaData.find? (fun e => e.1 = k)).map (fun e => e.2)

/-- Go type assertion `v.(string)`: succeeds only on a string value. -/
def asGoString : Option GoValue → Option String
  | some (GoValue.strV s) => some s
  | _ => none

/-- Go type assertion `v.(map[any]any)`: succeeds only on a map value. -/
def asGoMap : Option GoValue → Option (List (String × String))
  | some (GoValue.mapV m) => some m
  | _ => none

/-- How one `generateHtmlFile` call ends. -/
inductive RenderOutcome where
  | skippedDraft : RenderOutcome
  | success : String → RenderOutcome
  | fatalTypeError : RenderOutcome
  | fatalMissingTemplate : String → RenderOutcome
deriving DecidableEq

/-- The outcome of a render call together with every file the call
created via `os.Create` before it returned or terminated the build. -/
structure RenderResult where
  outcome : RenderOutcome
  filesCreated : List String
deriving DecidableEq

/-- The `params` local of `generateHtmlFile` (src/grafe.go lines 104-108):
`metaData["Params"]`, defaulted to an empty map when `nil`. -/
def paramsOf (metaData : List (String × GoValue)) : Option GoValue :=
  match metaLookup metaData "Params" with
  | none => some (GoValue.mapV [])
  | some v => some v

/-- The non-draft tail of `generateHtmlFile` (src/grafe.go lines 99-130),
as a function of the four extracted front-matter values: any failed type
assertion terminates the build with a type error, a resolved template
renders the page, an unresolved one terminates with the template's name;
in every non-draft case the output file has already been created. -/
def renderNonDraft (templates : List String) (outputFile : String)
    (titleV summaryV : Option String) (paramsV : Option (List (String × String)))
    (templateV : Option String) : RenderResult :=
  match titleV, summaryV, paramsV, templateV with
  | some _, some _, some _, some tmpl =>
      if addExtension tmpl ".html" ∈ templates then
        { outcome := RenderOutcome.success (addExtension tmpl ".html"),
          filesCreated := [outputFile] }
      else
        { outcome := RenderOutcome.fatalMissingTemplate (addExtension tmpl ".html"),
          filesCreated := [outputFile] }
  | _, _, _, _ =>
      { outcome := RenderOutcome.fatalTypeError, filesCreated := [outputFile] }

/-- `generateHtmlFile` from src/grafe.go lines 86-131, from the point
where the converter has produced the metadata map.  Mirrors the source
order: the `Draft` check (line 95) runs first and writes nothing;
otherwise `createDirectoryPath` and `os.Create(outputFile)` (lines
99-100) run before the `Title`, `Summary`, `Params` and `Template` type
assertions (lines 104-122) and the template lookup (line 124). -/
def generateHtmlFile (templates : List String) (metaData : List (String × GoValue))
    (outputFile : String) : RenderResult :=
  if metaLookup metaData "Draft" = some (GoValue.boolV true) then
    { outcome := RenderOutcome.skippedDraft, filesCreated := [] }
  else
    renderNonDraft templates outputFile
      (asGoString (metaLookup metaData "Title"))
      (asGoString (metaLookup metaData "Summary"))
      (asGoMap (paramsOf metaData))
      (asGoString (metaLookup metaData "Template"))

example : (generateHtmlFile ["page.html"]
    [("Title", GoValue.strV "T"), ("Summary", GoValue.strV "S"),
     ("Template", GoValue.strV "page")] "public/a.html") =
    { outcome := RenderOutcome.success "page.html", filesCreated := ["public/a.html"] } := by
  decide

theorem renderNonDraft_fatal (templates : List String) (outputFile : String)
    (titleV summaryV : Option String) (paramsV : Option (List (String × String)))
    (templateV : Option String)
    (h : titleV = none ∨ summaryV = none ∨ templateV = none) :
    renderNonDraft templates outputFile titleV summaryV paramsV templateV =
      { outcome := RenderOutcome.fatalTypeError, filesCreated := [outputFile] } := by
  cases titleV <;> cases summaryV <;> cases paramsV <;> cases templateV <;>
    simp_all [renderNonDraft]

theorem renderNonDraft_files (templates : List String) (outputFile : String)
    (titleV summaryV : Option String) (paramsV : Option (List (String × String)))
    (templateV : Option String) :
    (renderNonDraft templates outputFile titleV summaryV paramsV templateV).filesCreated =
      [outputFile] := by
  cases titleV <;> cases summaryV <;> cases paramsV <;> cases templateV <;>
    simp only [renderNonDraft] <;>
    first
    | rfl
    | (split_ifs <;> rfl)

/-- C2 (corrected) counterexample: with `Title`, `Summary` and `Template`
all absent, the renderer terminates with a type error, but it has already
created the output file, so it does not write zero files. -/
theorem c2_counterexample :
    (generateHtmlFile [] [] "public/a.html").outcome = RenderOutcome.fatalTypeError ∧
    (generateHtmlFile [] [] "public/a.html").filesCreated = ["public/a.html"] ∧
    (generateHtmlFile [] [] "public/a.html").filesCreated ≠ [] := by
  refine ⟨by decide, by decide, by decide⟩

/-- C2 (amended): on a missing or mistyped `Title`, `Summary` or
`Template` the renderer terminates the build with a type error, but only
after creating the (empty) output file: exactly one file is created on
success, zero on draft-skip, and exactly one — the page's own output
file — on a validation failure. -/
theorem c2_amended (templates : List String) (metaData : List (String × GoValue))
    (outputFile : String) :
    (metaLookup metaData "Draft" = some (GoValue.boolV true) →
      generateHtmlFile templates metaData outputFile =
        { outcome := RenderOutcome.skippedDraft, filesCreated := [] }) ∧
    (metaLookup metaData "Draft" ≠ some (GoValue.boolV true) →
      (asGoString (metaLookup metaData "Title") = none ∨
       asGoString (metaLookup metaData "Summary") = none ∨
       asGoString (metaLookup metaData "Template") = none) →
      generateHtmlFile templates metaData outputFile =
        { outcome := RenderOutcome.fatalTypeError, filesCreated := [outputFile] }) ∧
    (∀ t, (generateHtmlFile templates metaData outputFile).outcome =
        RenderOutcome.success t →
      (generateHtmlFile templates metaData outputFile).filesCreated = [outputFile]) := by
  refine ⟨?_, ?_, ?_⟩
  · intro hd
    rw [generateHtmlFile, if_pos hd]
  · intro hd hmiss
    rw [generateHtmlFile, if_neg hd]
    exact renderNonDraft_fatal _ _ _ _ _ _ hmiss
  · intro t hsucc
    by_cases hd : metaLookup metaData "Draft" = some (GoValue.boolV true)
    · rw [generateHtmlFile, if_pos hd] at hsucc
      exact absurd hsucc (by simp)
    · rw [generateHtmlFile, if_neg hd]
      exact renderNonDraft_files _ _ _ _ _ _

/-- Witness for C2 (amended): a concrete non-draft page with a missing
`Title` halts with a type error after creating exactly its own output
file; a concrete draft creates nothing. -/
theorem c2_amended_witness :
    generateHtmlFile [] [] "public/a.html" =
      { outcome := RenderOutcome.fatalTypeError, filesCreated := ["public/a.html"] } ∧
    generateHtmlFile [] [("Draft", GoValue.boolV true)] "public/a.html" =
      { outcome := RenderOutcome.skippedDraft, filesCreated := [] } :=
  ⟨(c2_amended [] [] "public/a.html").2.1 (by decide) (Or.inl (by decide)),
   (c2_amended [] [("Draft", GoValue.boolV true)] "public/a.html").1 (by decide)⟩

/-- C3: for every content file whose front-matter `Draft` field is boolean
`true`, `generateHtmlFile` writes no file and signals no error, regardless
of the other metadata fields (src/grafe.go lines 93-97). -/
theorem c3_draft_skip (templates : List String) (metaData : List (String × GoValue))
    (outputFile : String)
    (hd : metaLookup metaData "Draft" = some (GoValue.boolV true)) :
    generateHtmlFile templates metaData outputFile =
      { outcome := RenderOutcome.skippedDraft, filesCreated := [] } := by
  rw [generateHtmlFile, if_pos hd]

/-- Witness for C3: a concrete draft page with a mistyped `Title` and no
`Summary` or `Template` is skipped without writing anything. -/
theorem c3_draft_skip_witness :
    generateHtmlFile ["page.html"]
      [("Draft", GoValue.boolV true), ("Title", GoValue.intV 7)] "public/x.html" =
      { outcome := RenderOutcome.skippedDraft, filesCreated := [] } :=
  c3_draft_skip ["page.html"]
    [("Draft", GoValue.boolV true), ("Title", GoValue.intV 7)] "public/x.html" (by decide)

/-- C9: in `generateHtmlFile` the draft check (line 95) runs before the
required-field type assertions (lines 110-122), so a draft whose `Title`,
`Summary` or `Template` is absent or mistyped is still skipped silently
and successfully — validation is never applied to drafts. -/
theorem c9_draft_before_validation (templates : List String)
    (metaData : List (String × GoValue)) (outputFile : String)
    (hd : metaLookup metaData "Draft" = some (GoValue.boolV true))
    (hbad : asGoString (metaLookup metaData "Title") = none ∨
      asGoString (metaLookup metaData "Summary") = none ∨
      asGoString (metaLookup metaData "Template") = none) :
    generateHtmlFile templates metaData outputFile =
      { outcome := RenderOutcome.skippedDraft, filesCreated := [] } := by
  rw [generateHtmlFile, if_pos hd]

/-- Witness for C9: a concrete draft missing every required field is
skipped silently. -/
theorem c9_draft_before_validation_witness :
    generateHtmlFile [] [("Draft", GoValue.boolV true)] "public/x.html" =
      { outcome := RenderOutcome.skippedDraft, filesCreated := [] } :=
  c9_draft_before_validation [] [("Draft", GoValue.boolV true)] "public/x.html"
    (by decide) (Or.inl (by decide))

/-! ### Build orchestrator: main (src/grafe.go lines 222-266) -/

/-- One step of `main`. -/
inductive BuildStep where
  | generateTemplatesStep : BuildStep
  | constructConverterStep : BuildStep
  | removeOutputRootStep : BuildStep
  | convertContentStep : BuildStep
  | copyThemeStaticStep : BuildStep
  | copyProjectStaticStep : BuildStep
  | transpileTypescriptStep : BuildStep
  | createMarkerStep : BuildStep
  | startServerStep : BuildStep
deriving DecidableEq

/-- The statement order of `main` (src/grafe.go lines 222-266):
`generateTemplates` (line 224), the goldmark converter construction
(lines 226-249), `os.RemoveAll("public")` (line 251),
`convertContentDirectory` (line 254), `copyStaticDirectory("theme/static")`
(line 256), `copyStaticDirectory("static")` (line 258),
`transpileTypescript` (line 260), `os.Create("public/.nojekyll")`
(line 262), `startHTTPServer` (line 265). -/
def mainSequence : List BuildStep :=
  [BuildStep.generateTemplatesStep, BuildStep.constructConverterStep,
   BuildStep.removeOutputRootStep, BuildStep.convertContentStep,
   BuildStep.copyThemeStaticStep, BuildStep.copyProjectStaticStep,
   BuildStep.transpileTypescriptStep, BuildStep.createMarkerStep,
   BuildStep.startServerStep]

/-- Modelled from the spec: the order the claim states, deleting the
output root first and loading templates and the converter second. -/
def claimedSequence : List BuildStep :=
  [BuildStep.removeOutputRootStep, BuildStep.generateTemplatesStep,
   BuildStep.constructConverterStep, BuildStep.convertContentStep,
   BuildStep.copyThemeStaticStep, BuildStep.copyProjectStaticStep,
   BuildStep.transpileTypescriptStep, BuildStep.createMarkerStep,
   BuildStep.startServerStep]

/-- Modelled from the spec (amended): templates and the converter come
first, then the deletion of the output root, then the rest in order. -/
def amendedSequence : List BuildStep :=
  [BuildStep.generateTemplatesStep, BuildStep.constructConverterStep,
   BuildStep.removeOutputRootStep, BuildStep.convertContentStep,
   BuildStep.copyThemeStaticStep, BuildStep.copyProjectStaticStep,
   BuildStep.transpileTypescriptStep, BuildStep.createMarkerStep,
   BuildStep.startServerStep]

/-- Run steps in order until the first failing one (`check`/`log.Fatal`
semantics: the failing step is entered, then the process halts). -/
def runSteps (ok : BuildStep → Bool) : List BuildStep → List BuildStep
  | [] => []
  | s :: rest => if ok s then s :: runSteps ok rest else [s]

/-- The steps `main` actually executes given which steps succeed. -/
def executedSteps (ok : BuildStep → Bool) : List BuildStep :=
  runSteps ok mainSequence

theorem runSteps_pre (ok : BuildStep → Bool) (l : List BuildStep) :
    runSteps ok l <+: l := by
  induction l with
  | nil => exact List.nil_prefix
  | cons s rest ih =>
    rw [runSteps]
    by_cases hs : ok s = true
    · rw [if_pos hs]
      exact (List.prefix_cons_inj s).mpr ih
    · rw [if_neg hs]
      exact ⟨rest, rfl⟩

theorem runSteps_ok (ok : BuildStep → Bool) (l : List BuildStep) :
    ∀ s ∈ (runSteps ok l).dropLast, ok s = true := by
  induction l with
  | nil => intro s hs; simp [runSteps] at hs
  | cons a rest ih =>
    intro s hs
    rw [runSteps] at hs
    by_cases ha : ok a = true
    · rw [if_pos ha] at hs
      cases hr : runSteps ok rest with
      | nil => simp [hr] at hs
      | cons b bs =>
        rw [hr, List.dropLast_cons_of_ne_nil (by simp)] at hs
        rcases List.mem_cons.mp hs with h | h
        · exact h ▸ ha
        · exact ih s (by rw [hr]; exact h)
    · rw [if_neg ha] at hs
      simp at hs

/-- C4 (corrected) counterexample: `main` does not delete the output root
first — templates and the converter are set up before `os.RemoveAll`. -/
theorem c4_counterexample : mainSequence ≠ claimedSequence := by decide

/-- C4 (amended): `main` first loads templates and constructs the
converter, then recursively deletes the output root, then renders the
content tree, mirrors the theme static tree, mirrors the project static
tree, runs the transpiler pass, writes the marker file and starts the
preview server; whatever succeeds, the executed steps are a prefix of
this order, and every executed step but the failing last one succeeded. -/
theorem c4_amended :
    mainSequence = amendedSequence ∧
    (∀ ok : BuildStep → Bool, executedSteps ok <+: mainSequence) ∧
    (∀ ok : BuildStep → Bool, ∀ s ∈ (executedSteps ok).dropLast, ok s = true) := by
  refine ⟨by decide, ?_, ?_⟩
  · intro ok
    exact runSteps_pre ok mainSequence
  · intro ok
    exact runSteps_ok ok mainSequence

/-- Witness for C4 (amended) at two concrete success predicates. -/
theorem c4_amended_witness :
    executedSteps (fun _ => true) <+: mainSequence ∧
    (∀ s ∈ (executedSteps (fun s => s ≠ BuildStep.removeOutputRootStep)).dropLast,
      (fun s => (s ≠ BuildStep.removeOutputRootStep : Bool)) s = true) :=
  ⟨c4_amended.2.1 (fun _ => true),
   c4_amended.2.2 (fun s => (s ≠ BuildStep.removeOutputRootStep : Bool))⟩

/-! ### Functional file system, filepath.Dir, and the TypeScript pass
(src/grafe.go lines 68-71, 133-145, 202-213) -/

/-- The output tree as a partial map from path strings to file contents. -/
def FileSys : Type := String → Option String

/-- `os.Create` + write: map the path to the new contents. -/
def fsWrite (fs : FileSys) (p c : String) : FileSys :=
  fun q => if q = p then some c else fs q

/-- `os.Remove`: unmap the path. -/
def fsRemove (fs : FileSys) (p : String) : FileSys :=
  fun q => if q = p then none else fs q

/-- Go `path/filepath.Join` of already-split components (used to model
`filepath.Dir`). -/
def goJoin (sep : Char) : List (List Char) → List Char
  | [] => []
  | [x] => x
  | x :: xs => x ++ sep :: goJoin sep xs

/-- Go `filepath.Dir`, modelled for slash-normalized paths: everything
before the final `/`, or `"."` when the path has no `/`. -/
def goDir (p : String) : String :=
  if (goSplit '/' p.data).length ≤ 1 then "."
  else ⟨goJoin '/' (goSplit '/' p.data).dropLast⟩

/-- `createDirectoryPath` from src/grafe.go lines 68-71:
`os.MkdirAll(filepath.Dir(path), 0770)`; returns the directory made. -/
def createDirectoryPath (path : String) : String := goDir path

/-- State threaded through the transpiler pass: the output tree plus the
directories created by `createDirectoryPath` along the way. -/
structure TranspileState where
  fs : FileSys
  dirsCreated : List String

/-- The body of the `walk` callback in `transpileTypescript`
(src/grafe.go lines 203-212): skip files whose extension is not `.ts`;
otherwise create the (doubly-prefixed) directory chain for
`"public/" ++ newFileName`, transpile into `newFileName` and remove the
original.  The transpiler engine is an external collaborator and is a
parameter; a read failure would abort the build, so a visit of a path
absent from the tree leaves the tree unchanged. -/
def transpileVisit (engine : String → String) (st : TranspileState)
    (fileName : String) : TranspileState :=
  if getExtension fileName ≠ ".ts" then st
  else
    match st.fs fileName with
    | some tsCode =>
        { fs := fsRemove
            (fsWrite st.fs (changeExtension fileName ".js") (engine tsCode)) fileName,
          dirsCreated := st.dirsCreated ++
            [createDirectoryPath ("public/" ++ changeExtension fileName ".js")] }
    | none =>
        { st with dirsCreated := st.dirsCreated ++
            [createDirectoryPath ("public/" ++ changeExtension fileName ".js")] }

/-- `transpileTypescript` from src/grafe.go lines 202-213: the walk of
the populated output tree enumerates `files`; the pass folds the visit
body over them in order. -/
def transpileTypescript (engine : String → String) (files : List String)
    (st : TranspileState) : TranspileState :=
  files.foldl (transpileVisit engine) st

theorem ext_changeExt_js (p : String) :
    getExtension (changeExtension p ".js") = ".js" := by
  have hdata : (changeExtension p ".js").data = removeExtensionL p.data ++ '.' :: ['j', 's'] := by
    show (removeExtension p ++ ".js").data = _
    rw [strData_append]
    rfl
  have hlist : getExtensionL (changeExtension p ".js").data = '.' :: ['j', 's'] :=
    (congrArg getExtensionL hdata).trans
      (removeExt_append_dot p.data ['j', 's'] (by decide) (by decide)).1
  exact (congrArg String.mk hlist).trans rfl

theorem recon_str (f : String) (htrim : goTrimSpace f = f) :
    removeExtension f ++ getExtension f = f := by
  have h : goTrimSpaceL f.data = f.data := congrArg String.data htrim
  have hl : removeExtensionL f.data ++ getExtensionL f.data = f.data :=
    (removeExt_recon f.data).trans h
  exact congrArg String.mk hl

theorem changeExt_collision {f g : String}
    (hf : goTrimSpace f = f) (hg : goTrimSpace g = g)
    (hfts : getExtension f = ".ts") (hgts : getExtension g = ".ts")
    (heq : changeExtension f ".js" = changeExtension g ".js") : f = g := by
  have hd : (removeExtension f ++ (".js" : String)).data =
      (removeExtension g ++ (".js" : String)).data := congrArg String.data heq
  rw [strData_append, strData_append] at hd
  have hbase : (removeExtension f).data = (removeExtension g).data :=
    List.append_cancel_right hd
  have hf2 := recon_str f hf
  have hg2 := recon_str g hg
  rw [hfts] at hf2
  rw [hgts] at hg2
  rw [← hf2, ← hg2, strExt hbase]

theorem ext_ne_of_ne {p q : String} (h : getExtension p ≠ getExtension q) : p ≠ q :=
  fun hpq => h (congrArg getExtension hpq)

theorem transpile_fold_preserves (engine : String → String) (l : List String)
    (st : TranspileState) (g : String)
    (hg : ∀ f ∈ l, getExtension f = ".ts" → changeExtension f ".js" ≠ g ∧ f ≠ g) :
    (l.foldl (transpileVisit engine) st).fs g = st.fs g := by
  induction l generalizing st with
  | nil => rfl
  | cons f rest ih =>
    rw [List.foldl_cons]
    rw [ih _ (fun f' hf' => hg f' (List.mem_cons_of_mem f hf'))]
    by_cases hts : getExtension f = ".ts"
    · obtain ⟨h1, h2⟩ := hg f (List.mem_cons_self f rest) hts
      rw [transpileVisit, if_neg (not_not_intro hts)]
      cases hread : st.fs f with
      | none => rfl
      | some tsCode =>
        show fsRemove (fsWrite st.fs (changeExtension f ".js") (engine tsCode)) f g = st.fs g
        rw [fsRemove, fsWrite]
        rw [if_neg (Ne.symm h2), if_neg (Ne.symm h1)]
    · rw [transpileVisit, if_pos hts]

theorem transpile_dirs_mono (engine : String → String) (l : List String)
    (st : TranspileState) (d : String) (hd : d ∈ st.dirsCreated) :
    d ∈ (l.foldl (transpileVisit engine) st).dirsCreated := by
  induction l generalizing st with
  | nil => exact hd
  | cons f rest ih =>
    rw [List.foldl_cons]
    apply ih
    rw [transpileVisit]
    by_cases hts : getExtension f = ".ts"
    · rw [if_neg (not_not_intro hts)]
      cases st.fs f with
      | none => exact List.mem_append_left _ hd
      | some tsCode => exact List.mem_append_left _ hd
    · rw [if_pos hts]
      exact hd

theorem target_ne_ts {f g : String} (hg : getExtension g = ".ts") :
    changeExtension f ".js" ≠ g := by
  intro heq
  have := congrArg getExtension heq
  rw [ext_changeExt_js, hg] at this
  exact absurd this (by decide)

theorem transpile_step_eval (engine : String → String) (st1 : TranspileState)
    (f c : String) (hts : getExtension f = ".ts") (hc : st1.fs f = some c) :
    (transpileVisit engine st1 f).fs (changeExtension f ".js") = some (engine c) ∧
    (transpileVisit engine st1 f).fs f = none ∧
    createDirectoryPath ("public/" ++ changeExtension f ".js") ∈
      (transpileVisit engine st1 f).dirsCreated := by
  rw [transpileVisit, if_neg (not_not_intro hts), hc]
  have hjne : changeExtension f ".js" ≠ f := target_ne_ts hts
  generalize hj : changeExtension f ".js" = j
  rw [hj] at hjne
  refine ⟨?_, ?_, ?_⟩
  · show fsRemove (fsWrite st1.fs j (engine c)) f j = some (engine c)
    rw [fsRemove, if_neg hjne, fsWrite, if_pos rfl]
  · show fsRemove (fsWrite st1.fs j (engine c)) f f = none
    rw [fsRemove, if_pos rfl]
  · show createDirectoryPath ("public/" ++ j) ∈
      st1.dirsCreated ++ [createDirectoryPath ("public/" ++ j)]
    exact List.mem_append_right _ (List.mem_singleton.mpr rfl)

theorem transpile_phase2 (engine : String → String) (l2 : List String)
    (st2 : TranspileState) (j f d c : String)
    (hgj : ∀ g ∈ l2, getExtension g = ".ts" →
      changeExtension g ".js" ≠ j ∧ g ≠ j)
    (hgf : ∀ g ∈ l2, getExtension g = ".ts" →
      changeExtension g ".js" ≠ f ∧ g ≠ f)
    (h1 : st2.fs j = some c) (h2 : st2.fs f = none) (h3 : d ∈ st2.dirsCreated) :
    (l2.foldl (transpileVisit engine) st2).fs j = some c ∧
    (l2.foldl (transpileVisit engine) st2).fs f = none ∧
    d ∈ (l2.foldl (transpileVisit engine) st2).dirsCreated := by
  refine ⟨?_, ?_, transpile_dirs_mono engine l2 st2 d h3⟩
  · rw [transpile_fold_preserves engine l2 st2 j hgj]
    exact h1
  · rw [transpile_fold_preserves engine l2 st2 f hgf]
    exact h2

theorem transpile_ts_file (engine : String → String) (files : List String)
    (st : TranspileState) (f c : String)
    (hnd : files.Nodup)
    (htrim : ∀ g ∈ files, goTrimSpace g = g)
    (hmem : f ∈ files)
    (hts : getExtension f = ".ts")
    (hc : st.fs f = some c) :
    (transpileTypescript engine files st).fs (changeExtension f ".js") = some (engine c) ∧
    (transpileTypescript engine files st).fs f = none ∧
    createDirectoryPath ("public/" ++ changeExtension f ".js") ∈
      (transpileTypescript engine files st).dirsCreated := by
  obtain ⟨l1, l2, rfl⟩ := List.append_of_mem hmem
  obtain ⟨hnd1, hnd2, hdisj⟩ := List.nodup_append.mp hnd
  have hf1 : f ∉ l1 := fun hin => hdisj hin (List.mem_cons_self f l2)
  have hf2 : f ∉ l2 := (List.nodup_cons.mp hnd2).1
  rw [transpileTypescript, List.foldl_append, List.foldl_cons]
  have hg1 : ∀ g ∈ l1, getExtension g = ".ts" →
      changeExtension g ".js" ≠ f ∧ g ≠ f := by
    intro g hg hgts
    exact ⟨target_ne_ts hts, fun hfe => hf1 (hfe ▸ hg)⟩
  have hst1 : (l1.foldl (transpileVisit engine) st).fs f = some c := by
    rw [transpile_fold_preserves engine l1 st f hg1]
    exact hc
  have hg2j : ∀ g ∈ l2, getExtension g = ".ts" →
      changeExtension g ".js" ≠ changeExtension f ".js" ∧
      g ≠ changeExtension f ".js" := by
    intro g hg hgts
    constructor
    · intro heq
      have hfeq : g = f := changeExt_collision
        (htrim g (List.mem_append.mpr (Or.inr (List.mem_cons_of_mem f hg))))
        (htrim f (List.mem_append.mpr (Or.inr (List.mem_cons_self f l2))))
        hgts hts heq
      exact hf2 (hfeq ▸ hg)
    · intro hfe
      have hext : getExtension g = ".js" := by rw [hfe, ext_changeExt_js]
      rw [hgts] at hext
      exact absurd hext (by decide)
  have hg2f : ∀ g ∈ l2, getExtension g = ".ts" →
      changeExtension g ".js" ≠ f ∧ g ≠ f := by
    intro g hg hgts
    exact ⟨target_ne_ts hts, fun hfe => hf2 (hfe ▸ hg)⟩
  obtain ⟨s1, s2, s3⟩ :=
    transpile_step_eval engine (l1.foldl (transpileVisit engine) st) f c hts hst1
  exact transpile_phase2 engine l2 _ _ _ _ _ hg2j hg2f s1 s2 s3

/-- Initial output tree for the C5 counterexample: a TypeScript source
and a sibling JavaScript file that already occupies the target path. -/
def c5fs : FileSys := fun p =>
  if p = "public/a.ts" then some "T"
  else if p = "public/a.js" then some "J" else none

/-- C5 (corrected) counterexample: when `public/a.ts` and `public/a.js`
both exist, the pass overwrites the pre-existing `public/a.js` — a file
with another extension is not untouched. -/
theorem c5_counterexample :
    c5fs "public/a.js" = some "J" ∧
    (transpileTypescript (fun s => s) ["public/a.js", "public/a.ts"]
      { fs := c5fs, dirsCreated := [] }).fs "public/a.js" = some "T" ∧
    (transpileTypescript (fun s => s) ["public/a.js", "public/a.ts"]
      { fs := c5fs, dirsCreated := [] }).fs "public/a.js" ≠ c5fs "public/a.js" := by
  refine ⟨by decide, by decide, by decide⟩

/-- C5 (amended): for every file under the output root whose extension is
`.ts`, the pass writes the transpiled output to the same path with the
extension changed to `.js` and deletes the original; every file whose
extension is neither `.ts` nor `.js` is untouched (a pre-existing file at
a target `.js` path may be overwritten). -/
theorem c5_amended (engine : String → String) (files : List String)
    (st : TranspileState) (f c : String)
    (hnd : files.Nodup)
    (htrim : ∀ g ∈ files, goTrimSpace g = g)
    (hmem : f ∈ files) (hts : getExtension f = ".ts") (hc : st.fs f = some c) :
    (transpileTypescript engine files st).fs (changeExtension f ".js") = some (engine c) ∧
    (transpileTypescript engine files st).fs f = none ∧
    ∀ g : String, getExtension g ≠ ".ts" → getExtension g ≠ ".js" →
      (transpileTypescript engine files st).fs g = st.fs g := by
  obtain ⟨h1, h2, h3⟩ := transpile_ts_file engine files st f c hnd htrim hmem hts hc
  refine ⟨h1, h2, ?_⟩
  intro g hgts hgjs
  have hgpres : ∀ f' ∈ files, getExtension f' = ".ts" →
      changeExtension f' ".js" ≠ g ∧ f' ≠ g := by
    intro f' hf' hf'ts
    constructor
    · intro heq
      apply hgjs
      rw [← heq, ext_changeExt_js]
    · intro heq
      apply hgts
      rw [← heq, hf'ts]
  rw [transpileTypescript, transpile_fold_preserves engine files st g hgpres]

/-- Initial output tree for the C5 witness: a single TypeScript source. -/
def w5fs : FileSys := fun p => if p = "public/a.ts" then some "T" else none

/-- Witness for C5 (amended) on a one-file tree. -/
theorem c5_amended_witness :
    (transpileTypescript (fun s => s) ["public/a.ts"]
      { fs := w5fs, dirsCreated := [] }).fs (changeExtension "public/a.ts" ".js") =
      some "T" ∧
    (transpileTypescript (fun s => s) ["public/a.ts"]
      { fs := w5fs, dirsCreated := [] }).fs "public/a.ts" = none :=
  have h := c5_amended (fun s => s) ["public/a.ts"]
    { fs := w5fs, dirsCreated := [] } "public/a.ts" "T" (by decide)
    (fun g hg => by rw [List.mem_singleton] at hg; subst hg; decide)
    (by decide) (by decide) (by decide)
  ⟨h.1, h.2.1⟩

theorem goJoin_goSplit (sep : Char) (l : List Char) :
    goJoin sep (goSplit sep l) = l := by
  induction l with
  | nil => rfl
  | cons c rest ih =>
    cases hr : goSplit sep rest with
    | nil => exact absurd hr (goSplit_ne_nil sep rest)
    | cons h t =>
      rw [hr] at ih
      by_cases hc : c = sep
      · subst hc
        simp only [goSplit, hr]
        rw [if_pos trivial]
        show [] ++ c :: goJoin c (h :: t) = c :: rest
        rw [List.nil_append, ih]
      · simp only [goSplit, hr]
        rw [if_neg hc]
        cases t with
        | nil =>
          show c :: h = c :: rest
          have hhr : h = rest := ih
          rw [hhr]
        | cons t1 ts =>
          show (c :: h) ++ sep :: goJoin sep (t1 :: ts) = c :: rest
          rw [List.cons_append]
          rw [show h ++ sep :: goJoin sep (t1 :: ts) = rest from ih]

theorem goDir_of_decomp (p a : String) (b : List Char)
    (hpd : p.data = a.data ++ '/' :: b) (hb : '/' ∉ b) : goDir p = a := by
  have hsplit : goSplit '/' p.data = goSplit '/' a.data ++ [b] := by
    rw [hpd, goSplit_append, goSplit_of_not_mem hb]
  have hlen : ¬ (goSplit '/' p.data).length ≤ 1 := by
    rw [hsplit, List.length_append]
    have hpos : 0 < (goSplit '/' a.data).length :=
      List.length_pos.mpr (goSplit_ne_nil '/' a.data)
    simp only [List.length_cons, List.length_nil]
    omega
  rw [goDir, if_neg hlen, hsplit, List.dropLast_concat, goJoin_goSplit]

/-- C10: for a TypeScript file at `public/x/y.ts` (with an ordinary
dot-free, slash-free final name `y`), the transpiler pass prepares parent
directories for the doubly-prefixed path `"public/" ++ "public/x/y.js"`,
so it creates the extra directory chain `public/public/x` in addition to
writing `public/x/y.js` and deleting `public/x/y.ts`
(src/grafe.go line 208: `createDirectoryPath("public/" + newFileName)`). -/
theorem c10_doubled_dirs (engine : String → String) (files : List String)
    (st : TranspileState) (x y c : String)
    (hnd : files.Nodup)
    (htrim : ∀ g ∈ files, goTrimSpace g = g)
    (hmem : ("public/" ++ x ++ "/" ++ y ++ ".ts") ∈ files)
    (hy1 : ('/' : Char) ∉ y.data)
    (hy2 : ('.' : Char) ∉ y.data)
    (hy3 : y.data = [] ∨ goIsSpace (y.data.headD ' ') = false)
    (hc : st.fs ("public/" ++ x ++ "/" ++ y ++ ".ts") = some c) :
    ("public/public/" ++ x) ∈ (transpileTypescript engine files st).dirsCreated ∧
    (transpileTypescript engine files st).fs ("public/" ++ x ++ "/" ++ y ++ ".js") =
      some (engine c) ∧
    (transpileTypescript engine files st).fs ("public/" ++ x ++ "/" ++ y ++ ".ts") =
      none := by
  set f := "public/" ++ x ++ "/" ++ y ++ ".ts" with hf
  have hfl : f.data = ("public/" ++ x ++ "/").data ++ (y.data ++ '.' :: ['t', 's']) := by
    simp [hf, strData_append, List.append_assoc,
      show (".ts" : String).data = ['.', 't', 's'] from rfl]
  have ht0c : ("public/" ++ x ++ "/").data = 'p' :: ("ublic/" ++ x ++ "/").data := by
    simp [strData_append, List.append_assoc,
      show ("public/" : String).data = 'p' :: ("ublic/" : String).data from rfl]
  have hshape := @ext_of_shape ("public/" ++ x ++ "/").data y.data ['t', 's']
    (Or.inr ⟨("public/" ++ x).data, by
      simp [strData_append, List.append_assoc,
        show ("/" : String).data = ['/'] from rfl]⟩)
    hy1 hy2
    (Or.inr (by rw [ht0c, List.cons_append, List.headD_cons]; decide))
    hy3 (by decide) (by decide)
  have hext : getExtension f = ".ts" :=
    (congrArg String.mk ((congrArg getExtensionL hfl).trans hshape.1)).trans rfl
  have hrm : removeExtension f = "public/" ++ x ++ "/" ++ y :=
    (congrArg String.mk ((congrArg removeExtensionL hfl).trans hshape.2)).trans rfl
  have hchange : changeExtension f ".js" = "public/" ++ x ++ "/" ++ y ++ ".js" :=
    congrArg (fun s => s ++ ".js") hrm
  obtain ⟨m1, m2, m3⟩ := transpile_ts_file engine files st f c hnd htrim hmem hext hc
  refine ⟨?_, ?_, m2⟩
  · have hpd : ("public/" ++ changeExtension f ".js").data =
        ("public/public/" ++ x).data ++ '/' :: (y.data ++ '.' :: ['j', 's']) := by
      rw [strData_append, hchange]
      simp [strData_append, List.append_assoc,
        show (".js" : String).data = ['.', 'j', 's'] from rfl,
        show ("/" : String).data = ['/'] from rfl,
        show ("public/public/" : String).data =
          ("public/" : String).data ++ ("public/" : String).data from rfl]
    have hb : ('/' : Char) ∉ y.data ++ '.' :: ['j', 's'] := by
      intro hmem2
      rcases List.mem_append.mp hmem2 with h | h
      · exact hy1 h
      · rcases List.mem_cons.mp h with h | h
        · exact absurd h (by decide)
        · simp at h
    have hdir : createDirectoryPath ("public/" ++ changeExtension f ".js") =
        "public/public/" ++ x :=
      goDir_of_decomp ("public/" ++ changeExtension f ".js")
        ("public/public/" ++ x) (y.data ++ '.' :: ['j', 's']) hpd hb
    rw [← hdir]
    exact m3
  · rw [← hchange]
    exact m1

/-- Initial output tree for the C10 witness. -/
def w10fs : FileSys := fun p => if p = "public/x/y.ts" then some "T" else none

/-- Witness for C10 at the concrete file `public/x/y.ts`. -/
theorem c10_doubled_dirs_witness :
    ("public/public/" ++ "x") ∈ (transpileTypescript (fun s => s) ["public/x/y.ts"]
      { fs := w10fs, dirsCreated := [] }).dirsCreated ∧
    (transpileTypescript (fun s => s) ["public/x/y.ts"]
      { fs := w10fs, dirsCreated := [] }).fs ("public/" ++ "x" ++ "/" ++ "y" ++ ".js") =
      some "T" ∧
    (transpileTypescript (fun s => s) ["public/x/y.ts"]
      { fs := w10fs, dirsCreated := [] }).fs ("public/" ++ "x" ++ "/" ++ "y" ++ ".ts") =
      none :=
  c10_doubled_dirs (fun s => s) ["public/x/y.ts"]
    { fs := w10fs, dirsCreated := [] } "x" "y" "T" (by decide)
    (fun g hg => by rw [List.mem_singleton] at hg; subst hg; decide)
    (by decide) (by decide) (by decide) (by decide) (by decide)

/-! ### Asset mirror: copyStaticDirectory (src/grafe.go lines 191-200) -/

/-- Go `strings.TrimPrefix` on `String`. -/
def goTrimPre (s pre : String) : String := ⟨goTrimPreL s.data pre.data⟩

/-- `copyStaticDirectory` from src/grafe.go lines 191-200: the walk of
`directoryToCopy` enumerates `walked` as (path, contents) pairs; each
file is byte-copied (after `createDirectoryPath`) to
`"public/" ++ strings.TrimPrefix(path, directoryToCopy)`. -/
def copyStaticDirectory (directoryToCopy : String)
    (walked : List (String × String)) (fs : FileSys) : FileSys :=
  walked.foldl
    (fun acc e => fsWrite acc ("public/" ++ goTrimPre e.1 directoryToCopy) e.2) fs

theorem goTrimPre_append (pre r : String) : goTrimPre (pre ++ r) pre = r := by
  have h : goTrimPreL (pre ++ r).data pre.data = r.data := by
    rw [strData_append]
    exact trimPre_append pre.data r.data
  exact congrArg String.mk h

theorem copy_preserve (dir : String) (walked : List (String × String))
    (fs : FileSys) (g : String)
    (h : ∀ e ∈ walked, "public/" ++ goTrimPre e.1 dir ≠ g) :
    copyStaticDirectory dir walked fs g = fs g := by
  induction walked generalizing fs with
  | nil => rfl
  | cons e rest ih =>
    rw [copyStaticDirectory, List.foldl_cons]
    rw [show (rest.foldl
      (fun acc e => fsWrite acc ("public/" ++ goTrimPre e.1 dir) e.2)
      (fsWrite fs ("public/" ++ goTrimPre e.1 dir) e.2)) =
      copyStaticDirectory dir rest (fsWrite fs ("public/" ++ goTrimPre e.1 dir) e.2)
      from rfl]
    rw [ih _ (fun e' he' => h e' (List.mem_cons_of_mem e he'))]
    rw [fsWrite, if_neg]
    intro heq
    exact h e (List.mem_cons_self e rest) heq.symm

theorem copy_last (dir : String) (walked : List (String × String))
    (fs : FileSys) (k v : String)
    (hmem : (k, v) ∈ walked)
    (hnd : (walked.map Prod.fst).Nodup)
    (hinj : ∀ e ∈ walked, e.1 ≠ k →
      "public/" ++ goTrimPre e.1 dir ≠ "public/" ++ goTrimPre k dir) :
    copyStaticDirectory dir walked fs ("public/" ++ goTrimPre k dir) = some v := by
  induction walked generalizing fs with
  | nil => exact absurd hmem (List.not_mem_nil _)
  | cons e rest ih =>
    rw [List.map_cons, List.nodup_cons] at hnd
    rw [copyStaticDirectory, List.foldl_cons]
    rw [show (rest.foldl
      (fun acc e => fsWrite acc ("public/" ++ goTrimPre e.1 dir) e.2)
      (fsWrite fs ("public/" ++ goTrimPre e.1 dir) e.2)) =
      copyStaticDirectory dir rest (fsWrite fs ("public/" ++ goTrimPre e.1 dir) e.2)
      from rfl]
    by_cases hek : e.1 = k
    · have hev : e = (k, v) := by
        rcases List.mem_cons.mp hmem with h | h
        · exact h.symm
        · exfalso
          apply hnd.1
          rw [hek]
          exact List.mem_map.mpr ⟨(k, v), h, rfl⟩
      subst hev
      rw [copy_preserve]
      · rw [fsWrite, if_pos rfl]
      · intro e' he'
        apply hinj e' (List.mem_cons_of_mem _ he')
        intro hke
        apply hnd.1
        rw [← hke]
        exact List.mem_map.mpr ⟨e', he', rfl⟩
    · apply ih
      · rcases List.mem_cons.mp hmem with h | h
        · exact absurd (congrArg Prod.fst h.symm) hek
        · exact h
      · exact hnd.2
      · intro e' he'
        exact hinj e' (List.mem_cons_of_mem _ he')

/-- C6: when a theme-static file and a project-static file share the same
relative path, after the two mirrors run in `main`'s order (theme first,
project second) the output path holds the project file's bytes:
last-mirrored-wins (src/grafe.go lines 191-200, 256-258). -/
theorem c6_last_mirror_wins (fs0 : FileSys)
    (themeWalk staticWalk : List (String × String)) (rel cT cP : String)
    (hTheme : ("theme/static" ++ rel, cT) ∈ themeWalk)
    (hProj : ("static" ++ rel, cP) ∈ staticWalk)
    (hnd : (staticWalk.map Prod.fst).Nodup)
    (hpre : ∀ e ∈ staticWalk, ∃ r, e.1 = "static" ++ r) :
    copyStaticDirectory "static" staticWalk
      (copyStaticDirectory "theme/static" themeWalk fs0) ("public/" ++ rel) =
      some cP := by
  have hinj : ∀ e ∈ staticWalk, e.1 ≠ "static" ++ rel →
      "public/" ++ goTrimPre e.1 "static" ≠
      "public/" ++ goTrimPre ("static" ++ rel) "static" := by
    intro e he hne heq
    obtain ⟨r, hr⟩ := hpre e he
    rw [hr, goTrimPre_append, goTrimPre_append] at heq
    have hd := congrArg String.data heq
    rw [strData_append, strData_append] at hd
    have : r = rel := strExt (List.append_cancel_left hd)
    exact hne (by rw [hr, this])
  have hlast := copy_last "static" staticWalk
    (copyStaticDirectory "theme/static" themeWalk fs0) ("static" ++ rel) cP
    hProj hnd hinj
  rw [goTrimPre_append] at hlast
  exact hlast

/-- Witness for C6 on concrete one-file walks. -/
theorem c6_last_mirror_wins_witness :
    copyStaticDirectory "static" [("static/s.css", "P")]
      (copyStaticDirectory "theme/static" [("theme/static/s.css", "T")]
        (fun _ => none)) ("public/" ++ "/s.css") = some "P" :=
  c6_last_mirror_wins (fun _ => none) [("theme/static/s.css", "T")]
    [("static/s.css", "P")] "/s.css" "T" "P" (by decide) (by decide) (by decide)
    (fun e he => by
      rw [List.mem_singleton] at he
      subst he
      exact ⟨"/s.css", by decide⟩)

/-! ### Tree walker: walk (src/grafe.go lines 37-46) -/

/-- A directory entry as returned by `os.ReadDir`: a regular file, or a
directory with its own listing.  `readable` models whether `os.ReadDir`
succeeds on the directory — the source discards the error
(`items, _ := os.ReadDir(dir)`), so an unreadable directory behaves as
an empty listing. -/
inductive Entry where
  | file (name : String) : Entry
  | dir (name : String) (readable : Bool) (children : List Entry) : Entry

/-- `walk` from src/grafe.go lines 37-46: the sequence of paths on which
`fileFunction` is invoked.  Files contribute `dir ++ "/" ++ name`;
directories are recursed into (and contribute nothing themselves); an
unreadable directory contributes nothing at all. -/
def walk (dir : String) : List Entry → List String
  | [] => []
  | Entry.file n :: rest => (dir ++ "/" ++ n) :: walk dir rest
  | Entry.dir n r cs :: rest =>
      (if r then walk (dir ++ "/" ++ n) cs else []) ++ walk dir rest

/-- The entry's file name. -/
def entryName : Entry → String
  | Entry.file n => n
  | Entry.dir n _ _ => n

mutual

/-- Well-formedness of one entry: its name has no path separator, and a
directory's listing is itself well-formed. -/
def entryWf : Entry → Prop
  | Entry.file n => ('/' : Char) ∉ n.data
  | Entry.dir n _ cs => ('/' : Char) ∉ n.data ∧ levelWf cs

/-- Well-formedness of a directory listing: every entry is well-formed
and the names are pairwise distinct, as on a real file system. -/
def levelWf : List Entry → Prop
  | [] => True
  | e :: rest => entryWf e ∧ (∀ e2 ∈ rest, entryName e2 ≠ entryName e) ∧ levelWf rest

end

/-- `ReachesFile d es p`: starting from a directory at path `d` whose
listing is `es`, the path `p` denotes a regular file reachable through
readable directories. -/
inductive ReachesFile : String → List Entry → String → Prop where
  | fileHere (d : String) (es : List Entry) (n : String)
      (h : Entry.file n ∈ es) : ReachesFile d es (d ++ "/" ++ n)
  | inDir (d : String) (es : List Entry) (n : String) (cs : List Entry) (p : String)
      (h : Entry.dir n true cs ∈ es) (hp : ReachesFile (d ++ "/" ++ n) cs p) :
      ReachesFile d es p

theorem pathData (d n : String) : (d ++ "/" ++ n).data = d.data ++ '/' :: n.data := by
  simp [strData_append, List.append_assoc, show ("/" : String).data = ['/'] from rfl]

theorem takeWhile_ne_self {c : Char} {l : List Char} (h : c ∉ l) :
    l.takeWhile (fun a => a ≠ c) = l := by
  have h2 := takeWhile_all_append (fun a => a ≠ c) l []
    (fun a ha => by
      simp only [ne_eq, decide_eq_true_eq]
      intro he
      exact h (he ▸ ha))
  simpa using h2

theorem reaches_weaken {d p : String} {rest : List Entry} (e : Entry)
    (h : ReachesFile d rest p) : ReachesFile d (e :: rest) p := by
  cases h with
  | fileHere _ _ n hm => exact ReachesFile.fileHere d _ n (List.mem_cons_of_mem e hm)
  | inDir _ _ n cs p hm hp =>
    exact ReachesFile.inDir d _ n cs p (List.mem_cons_of_mem e hm) hp

theorem walk_mem_file (es : List Entry) (d n : String) (h : Entry.file n ∈ es) :
    (d ++ "/" ++ n) ∈ walk d es := by
  induction es with
  | nil => simp at h
  | cons e rest ih =>
    rcases List.mem_cons.mp h with h1 | h2
    · rw [← h1]
      simp only [walk]
      exact List.mem_cons_self _ _
    · cases e with
      | file m =>
        simp only [walk]
        exact List.mem_cons_of_mem _ (ih h2)
      | dir m r cs =>
        simp only [walk]
        exact List.mem_append_right _ (ih h2)

theorem walk_mem_dir (es : List Entry) (d n : String) (cs : List Entry) (p : String)
    (h : Entry.dir n true cs ∈ es) (hp : p ∈ walk (d ++ "/" ++ n) cs) :
    p ∈ walk d es := by
  induction es with
  | nil => simp at h
  | cons e rest ih =>
    rcases List.mem_cons.mp h with h1 | h2
    · rw [← h1]
      simp only [walk, if_true]
      exact List.mem_append_left _ hp
    · cases e with
      | file m =>
        simp only [walk]
        exact List.mem_cons_of_mem _ (ih h2)
      | dir m r cs2 =>
        simp only [walk]
        exact List.mem_append_right _ (ih h2)

theorem walk_reaches (d : String) (es : List Entry) :
    ∀ p ∈ walk d es, ReachesFile d es p := by
  induction d, es using walk.induct with
  | case1 d => intro p hp; simp [walk] at hp
  | case2 d n rest ih =>
    intro p hp
    simp only [walk, List.mem_cons] at hp
    rcases hp with hp | hp
    · rw [hp]
      exact ReachesFile.fileHere d _ n (List.mem_cons_self _ _)
    · exact reaches_weaken _ (ih p hp)
  | case3 d n r cs rest ihc ihr =>
    intro p hp
    simp only [walk, List.mem_append] at hp
    rcases hp with hp | hp
    · cases r with
      | false => simp at hp
      | true =>
        rw [if_pos rfl] at hp
        exact ReachesFile.inDir d _ n cs p (List.mem_cons_self _ _) (ihc p hp)
    · exact reaches_weaken _ (ihr p hp)

theorem walk_of_reaches {d : String} {es : List Entry} {p : String}
    (h : ReachesFile d es p) : p ∈ walk d es := by
  induction h with
  | fileHere d es n hm => exact walk_mem_file es d n hm
  | inDir d es n cs p hm hp ih => exact walk_mem_dir es d n cs p hm ih

theorem walk_shape (d : String) (es : List Entry) :
    levelWf es → ∀ p ∈ walk d es, ∃ e ∈ es, ∃ s : List Char,
      p.data = d.data ++ '/' :: s ∧
      s.takeWhile (fun c => c ≠ '/') = (entryName e).data := by
  induction d, es using walk.induct with
  | case1 d => intro hwf p hp; simp [walk] at hp
  | case2 d n rest ih =>
    intro hwf p hp
    simp only [levelWf, entryWf] at hwf
    obtain ⟨hwfE, hnames, hwfR⟩ := hwf
    simp only [walk, List.mem_cons] at hp
    rcases hp with hp | hp
    · refine ⟨Entry.file n, List.mem_cons_self _ _, n.data, ?_, ?_⟩
      · rw [hp, pathData]
      · rw [takeWhile_ne_self hwfE]
        rfl
    · obtain ⟨e, he, s, h1, h2⟩ := ih hwfR p hp
      exact ⟨e, List.mem_cons_of_mem _ he, s, h1, h2⟩
  | case3 d n r cs rest ihc ihr =>
    intro hwf p hp
    simp only [levelWf, entryWf] at hwf
    obtain ⟨⟨hnsl, hwfcs⟩, hnames, hwfR⟩ := hwf
    simp only [walk, List.mem_append] at hp
    rcases hp with hp | hp
    · cases r with
      | false => simp at hp
      | true =>
        rw [if_pos rfl] at hp
        obtain ⟨e1, he1, s1, ha1, ha2⟩ := ihc hwfcs p hp
        refine ⟨Entry.dir n true cs, List.mem_cons_self _ _, n.data ++ '/' :: s1, ?_, ?_⟩
        · rw [ha1, pathData]
          simp [List.append_assoc]
        · rw [takeWhile_all_append _ _ _ (fun a ha => by
            simp only [ne_eq, decide_eq_true_eq]
            intro he
            exact hnsl (he ▸ ha))]
          rw [takeWhile_cons_false _ (by simp)]
          simp [entryName]
    · obtain ⟨e, he, s, h1, h2⟩ := ihr hwfR p hp
      exact ⟨e, List.mem_cons_of_mem _ he, s, h1, h2⟩

theorem walk_nodup (d : String) (es : List Entry) :
    levelWf es → (walk d es).Nodup := by
  induction d, es using walk.induct with
  | case1 d => intro hwf; simp [walk]
  | case2 d n rest ih =>
    intro hwf
    simp only [levelWf, entryWf] at hwf
    obtain ⟨hwfE, hnames, hwfR⟩ := hwf
    simp only [walk]
    rw [List.nodup_cons]
    refine ⟨?_, ih hwfR⟩
    intro hmem
    obtain ⟨e, he, s, h1, h2⟩ := walk_shape d rest hwfR _ hmem
    rw [pathData] at h1
    have hs : ('/' : Char) :: n.data = '/' :: s := List.append_cancel_left h1
    injection hs with _ hs2
    rw [← hs2, takeWhile_ne_self hwfE] at h2
    have hname : entryName e = n := (strExt h2.symm)
    exact hnames e he (by rw [hname]; rfl)
  | case3 d n r cs rest ihc ihr =>
    intro hwf
    simp only [levelWf, entryWf] at hwf
    obtain ⟨⟨hnsl, hwfcs⟩, hnames, hwfR⟩ := hwf
    simp only [walk]
    cases r with
    | false =>
      simp only [if_neg (by simp : ¬ (false = true)), List.nil_append]
      exact ihr hwfR
    | true =>
      rw [if_pos rfl, List.nodup_append]
      refine ⟨ihc hwfcs, ihr hwfR, ?_⟩
      intro p hp1 hp2
      obtain ⟨e1, he1, s1, ha1, ha2⟩ := walk_shape (d ++ "/" ++ n) cs hwfcs p hp1
      obtain ⟨e2, he2, s2, hb1, hb2⟩ := walk_shape d rest hwfR p hp2
      rw [pathData] at ha1
      rw [hb1] at ha1
      rw [List.append_assoc] at ha1
      have hs : ('/' : Char) :: s2 = '/' :: (n.data ++ '/' :: s1) := by
        have := List.append_cancel_left ha1
        simpa using this
      injection hs with _ hs2
      rw [hs2] at hb2
      rw [takeWhile_all_append _ _ _ (fun a ha => by
        simp only [ne_eq, decide_eq_true_eq]
        intro he
        exact hnsl (he ▸ ha))] at hb2
      rw [takeWhile_cons_false _ (by simp)] at hb2
      rw [List.append_nil] at hb2
      have hname : entryName e2 = n := strExt hb2.symm
      exact hnames e2 he2 (by rw [hname]; rfl)

/-- C8: `walk` invokes its callback exactly once for every regular file
reachable from the root through readable directories (membership in the
visit list is equivalent to reachability, and under the well-formedness
every real directory tree satisfies — distinct, slash-free names per
listing — the visit list has no duplicates), never invokes it on a
directory (only `ReachesFile`-paths, which end at `Entry.file` leaves,
are visited), and never fails: an unreadable directory contributes zero
visits for its subtree instead of aborting (src/grafe.go line 38 ignores
the `os.ReadDir` error). -/
theorem c8_walk (d : String) (es : List Entry) :
    (∀ p, p ∈ walk d es ↔ ReachesFile d es p) ∧
    (levelWf es → (walk d es).Nodup) ∧
    (∀ n cs rest, walk d (Entry.dir n false cs :: rest) = walk d rest) := by
  refine ⟨fun p => ⟨fun h => walk_reaches d es p h, fun h => walk_of_reaches h⟩,
    fun hwf => walk_nodup d es hwf, fun n cs rest => ?_⟩
  simp [walk]

/-- Witness for C8 on a concrete two-level tree with an unreadable
directory. -/
theorem c8_walk_witness :
    (walk "root" [Entry.file "a",
      Entry.dir "sub" true [Entry.file "b"],
      Entry.dir "locked" false [Entry.file "c"]]).Nodup :=
  (c8_walk "root" [Entry.file "a",
      Entry.dir "sub" true [Entry.file "b"],
      Entry.dir "locked" false [Entry.file "c"]]).2.1
    (by
      simp only [levelWf, entryWf, entryName]
      refine ⟨by decide, ?_, ⟨by decide, by decide, ?_, ?_⟩, ?_⟩ <;> simp <;> decide)
